import Mathlib

/-!
Verification of the LOWESS-style smoother in `4th.py` (`my_lowess` and its
helpers `w` and `weighted_linear_regression`).

Embedding conventions:
* Sample values and all intermediate real arithmetic are modelled over `ℚ`
  (the source computes with IEEE doubles; every operation in the kernel is
  rational, so the idealized arithmetic is exact).
* `FV` ("floating value") adjoins to `ℚ` a single element `FV.nonfin`
  abstracting every non-finite IEEE double (`+inf`, `-inf`, `NaN`).  The one
  unguarded division in the source (`b = ... / np.sum(w * x_diff ** 2)`,
  line 31) produces a non-finite value exactly when its denominator is zero;
  in the arithmetic that follows (`a = y_mean - b * x_mean`, `a + b * x`)
  an operand that is non-finite always yields a non-finite result for the
  operations used (`+`, `-`, `*`), which is what the absorbing equations of
  `FV` encode.
* Failure points that raise Python exceptions are modelled with `Option`:
  `max()` over an empty window raises `ValueError`, and the indexing
  `np.where(x_local == i)[0][0]` raises `IndexError` when there is no match;
  `none` marks either exception.
* `my_lowess` is always invoked (from `lowess`, line 68) with
  `data_x = np.arange(len(data_y))`, so positions are the indices themselves
  and the embedding takes only `data_y` and the window size.
* Python's `int` is `ℤ`; `window_size` is therefore modelled as `ℤ` so that
  negative widths remain representable.
-/

/-- A floating-point value: either a finite rational or a non-finite IEEE
value (`NaN` or an infinity, not distinguished). -/
inductive FV where
  | fin (q : ℚ) : FV
  | nonfin : FV
deriving DecidableEq

/-- IEEE addition at the granularity of finite versus non-finite. -/
def FV.add : FV → FV → FV
  | FV.fin a, FV.fin b => FV.fin (a + b)
  | _, _ => FV.nonfin

/-- IEEE subtraction at the granularity of finite versus non-finite. -/
def FV.sub : FV → FV → FV
  | FV.fin a, FV.fin b => FV.fin (a - b)
  | _, _ => FV.nonfin

/-- IEEE multiplication at the granularity of finite versus non-finite.
(`inf * 0 = NaN`, so a non-finite operand always gives a non-finite
result.) -/
def FV.mul : FV → FV → FV
  | FV.fin a, FV.fin b => FV.fin (a * b)
  | _, _ => FV.nonfin

/-- IEEE division: dividing by zero (`0/0 = NaN`, `x/0 = ±inf`) is the one
place the kernel manufactures a non-finite value (line 31 of the source). -/
def FV.div : FV → FV → FV
  | FV.fin a, FV.fin b => if b = 0 then FV.nonfin else FV.fin (a / b)
  | _, _ => FV.nonfin

/-- The tri-cube weight function `w` (lines 20-21):
`(1 - np.abs(x) ** 3) ** 3 if np.abs(x) <= 1 else 0`. -/
def tricube (x : ℚ) : ℚ :=
  if |x| ≤ 1 then (1 - |x| ^ 3) ^ 3 else 0

/-- `np.sum(x * w)`: elementwise product then sum. -/
def dot (x w : List ℚ) : ℚ :=
  (List.zipWith (fun a b => a * b) x w).sum

/-- `x_mean = np.sum(x * w) / w_sum if w_sum != 0 else 0` (line 27). -/
def xMean (x w : List ℚ) : ℚ :=
  if w.sum ≠ 0 then dot x w / w.sum else 0

/-- `y_mean = np.sum(y * w) / w_sum if w_sum != 0 else 0` (line 28). -/
def yMean (y w : List ℚ) : ℚ :=
  if w.sum ≠ 0 then dot y w / w.sum else 0

/-- The numerator `np.sum(w * (x_diff * y_diff))` of the slope (line 31). -/
def slopeNum (x y w : List ℚ) : ℚ :=
  (List.zipWith (fun wi t => wi * t) w
    (List.zipWith (fun s t => s * t)
      (x.map (fun t => t - xMean x w))
      (y.map (fun t => t - yMean y w)))).sum

/-- The denominator `np.sum(w * x_diff ** 2)` of the slope (line 31). -/
def slopeDenom (x w : List ℚ) : ℚ :=
  (List.zipWith (fun wi t => wi * t) w
    ((x.map (fun t => t - xMean x w)).map (fun t => t ^ 2))).sum

/-- `weighted_linear_regression` (lines 23-33): weighted means, slope
`b = slopeNum / slopeDenom` (unguarded division), intercept
`a = y_mean - b * x_mean`, returning the array `a + b * x`. -/
def weighted_linear_regression (x y w : List ℚ) : List FV :=
  (x.map (fun xi =>
    FV.add
      (FV.sub (FV.fin (yMean y w))
        (FV.mul (FV.div (FV.fin (slopeNum x y w)) (FV.fin (slopeDenom x w)))
          (FV.fin (xMean x w))))
      (FV.mul (FV.div (FV.fin (slopeNum x y w)) (FV.fin (slopeDenom x w)))
        (FV.fin xi))))

/-- The window start after the two shift steps and the final clamp
(lines 37-45): `start = i - window_size`, shifted right when negative,
shifted left by the overflow of the (already shifted) end, then
`max(start, 0)`. -/
def windowStart (n : ℕ) (ws : ℤ) (i : ℕ) : ℤ :=
  let s0 : ℤ := (i : ℤ) - ws
  let e0 : ℤ := (i : ℤ) + ws + 1
  let s1 : ℤ := if s0 < 0 then 0 else s0
  let e1 : ℤ := if s0 < 0 then e0 - s0 else e0
  max (if e1 > (n : ℤ) then s1 - (e1 - (n : ℤ)) else s1) 0

/-- The window end after the two shift steps and the final clamp
(lines 38-46): `end = i + window_size + 1`, extended when the start was
negative, truncated to `n` when overflowing, then `min(end, n)`. -/
def windowEnd (n : ℕ) (ws : ℤ) (i : ℕ) : ℤ :=
  let s0 : ℤ := (i : ℤ) - ws
  let e0 : ℤ := (i : ℤ) + ws + 1
  let e1 : ℤ := if s0 < 0 then e0 - s0 else e0
  min (if e1 > (n : ℤ) then (n : ℤ) else e1) (n : ℤ)

/-- Number of samples in the selected window. -/
def windowLen (n : ℕ) (ws : ℤ) (i : ℕ) : ℕ :=
  (windowEnd n ws i - windowStart n ws i).toNat

/-- `window = np.arange(start, end)` (line 48); with `data_x = arange(n)`
these are at once the indices and the positions `x_local` of the window. -/
def windowList (n : ℕ) (ws : ℤ) (i : ℕ) : List ℤ :=
  (List.range (windowLen n ws i)).map (fun (k : ℕ) => windowStart n ws i + (k : ℤ))

/-- The signed offsets `x_local - i` (lines 52 and 54). -/
def localOffsets (n : ℕ) (ws : ℤ) (i : ℕ) : List ℤ :=
  (windowList n ws i).map (fun j => j - (i : ℤ))

/-- `max(abs(x_local - i))` (line 54).  Python's `max` raises `ValueError`
on an empty sequence, hence the `Option`. -/
def maxAbsOffset (n : ℕ) (ws : ℤ) (i : ℕ) : Option ℕ :=
  if localOffsets n ws i = [] then none
  else some (((localOffsets n ws i).map Int.natAbs).foldr max 0)

/-- The value `max(abs(x_local - i))` when it exists. -/
def mVal (n : ℕ) (ws : ℤ) (i : ℕ) : ℕ :=
  ((localOffsets n ws i).map Int.natAbs).foldr max 0

/-- The weight vector `np.array([w(x) for x in (x_local - i) / max(abs(x_local - i))])`
(line 54).  When the maximal absolute offset `m` is zero every offset is
zero, so the IEEE quotient is `0/0 = NaN`; `np.abs(NaN) <= 1` is false, so
`w` returns `0`.  The `if m = 0 then 0` branch transcribes exactly that. -/
def localWeights (n : ℕ) (ws : ℤ) (i : ℕ) : Option (List ℚ) :=
  (maxAbsOffset n ws i).map (fun (m : ℕ) =>
    (localOffsets n ws i).map (fun (d : ℤ) =>
      if m = 0 then 0 else tricube ((d : ℚ) / (m : ℚ))))

/-- The weight vector, defaulting to `[]` (only reachable when the window
is empty, in which case the source has already raised). -/
def theWeights (n : ℕ) (ws : ℤ) (i : ℕ) : List ℚ :=
  (localWeights n ws i).getD []

/-- The regression abscissae `x_local - i` as rationals (line 52). -/
def localXs (n : ℕ) (ws : ℤ) (i : ℕ) : List ℚ :=
  (localOffsets n ws i).map (fun (d : ℤ) => (d : ℚ))

/-- `y_local = data_y[window]` (line 50); window indices are proven to lie
in `[0, n)` whenever `window_size ≥ 0`, so the default of `getD` is never
taken there. -/
def localYs (y : List ℚ) (ws : ℤ) (i : ℕ) : List ℚ :=
  (windowList y.length ws i).map (fun j => y.getD j.toNat 0)

/-- The slope denominator of the window at target index `i` — the quantity
whose vanishing makes the kernel's division (line 31) non-finite. -/
def windowDen (y : List ℚ) (ws : ℤ) (i : ℕ) : ℚ :=
  slopeDenom (localXs y.length ws i) (theWeights y.length ws i)

/-- One iteration of the loop body (lines 37-55): select the window, build
the weights, run the weighted regression on the local offsets, and pick the
entry at the first position where `x_local == i`
(`np.where(x_local == i)[0][0]`).  `none` models a raised exception
(`ValueError` from the empty `max`, or `IndexError` from the lookup). -/
def smooth_at (y : List ℚ) (ws : ℤ) (i : ℕ) : Option FV :=
  match localWeights y.length ws i with
  | none => none
  | some wts =>
    (weighted_linear_regression (localXs y.length ws i) (localYs y ws i) wts)[
      (windowList y.length ws i).findIdx (fun j => j = (i : ℤ))]?

/-- `my_lowess` restricted to its actual call pattern
`my_lowess(np.arange(len(data_y)), data_y, window_size)` (lines 35-56 and
68): the result array has one slot per input index, filled in index
order. -/
def my_lowess (y : List ℚ) (ws : ℤ) : List (Option FV) :=
  (List.range y.length).map (fun i => smooth_at y ws i)

/-! ### Window geometry -/

theorem windowStart_nonneg (n : ℕ) (ws : ℤ) (i : ℕ) : 0 ≤ windowStart n ws i := by
  simp only [windowStart]
  split_ifs <;> omega

theorem windowStart_le (n : ℕ) (ws : ℤ) (i : ℕ) (hws : 0 ≤ ws) (hi : i < n) :
    windowStart n ws i ≤ (i : ℤ) := by
  have hi' : (i : ℤ) < (n : ℤ) := by exact_mod_cast hi
  simp only [windowStart]
  split_ifs <;> omega

theorem lt_windowEnd (n : ℕ) (ws : ℤ) (i : ℕ) (hws : 0 ≤ ws) (hi : i < n) :
    (i : ℤ) < windowEnd n ws i := by
  have hi' : (i : ℤ) < (n : ℤ) := by exact_mod_cast hi
  simp only [windowEnd]
  split_ifs <;> omega

theorem windowEnd_le (n : ℕ) (ws : ℤ) (i : ℕ) : windowEnd n ws i ≤ (n : ℤ) := by
  simp only [windowEnd]
  split_ifs <;> omega

theorem windowEnd_sub_windowStart (n : ℕ) (ws : ℤ) (i : ℕ) (hws : 0 ≤ ws) (hi : i < n) :
    windowEnd n ws i - windowStart n ws i = min (n : ℤ) (2 * ws + 1) := by
  have hi' : (i : ℤ) < (n : ℤ) := by exact_mod_cast hi
  simp only [windowStart, windowEnd]
  split_ifs <;> omega

theorem windowLen_eq (n : ℕ) (ws : ℤ) (i : ℕ) (hws : 0 ≤ ws) (hi : i < n) :
    (windowLen n ws i : ℤ) = min (n : ℤ) (2 * ws + 1) := by
  have h := windowEnd_sub_windowStart n ws i hws hi
  have hi' : (i : ℤ) < (n : ℤ) := by exact_mod_cast hi
  simp only [windowLen, h]
  omega

theorem windowStart_add_len (n : ℕ) (ws : ℤ) (i : ℕ) (hws : 0 ≤ ws) (hi : i < n) :
    windowStart n ws i + (windowLen n ws i : ℤ) = windowEnd n ws i := by
  have h := windowEnd_sub_windowStart n ws i hws hi
  have hi' : (i : ℤ) < (n : ℤ) := by exact_mod_cast hi
  simp only [windowLen, h]
  omega

theorem length_windowList (n : ℕ) (ws : ℤ) (i : ℕ) :
    (windowList n ws i).length = windowLen n ws i := by
  simp only [windowList, List.length_map, List.length_range]

theorem getElem?_windowList (n : ℕ) (ws : ℤ) (i t : ℕ) (ht : t < windowLen n ws i) :
    (windowList n ws i)[t]? = some (windowStart n ws i + (t : ℤ)) := by
  rw [windowList, List.getElem?_map, List.getElem?_range ht]
  rfl

theorem mem_windowList (n : ℕ) (ws : ℤ) (i : ℕ) (j : ℤ) :
    j ∈ windowList n ws i ↔
      windowStart n ws i ≤ j ∧ j < windowStart n ws i + (windowLen n ws i : ℤ) := by
  simp only [windowList, List.mem_map, List.mem_range]
  constructor
  · rintro ⟨k, hk, rfl⟩
    omega
  · intro hj
    exact ⟨(j - windowStart n ws i).toNat, by omega, by omega⟩

theorem mem_windowList_bounds (n : ℕ) (ws : ℤ) (i : ℕ) (j : ℤ)
    (hws : 0 ≤ ws) (hi : i < n) (hj : j ∈ windowList n ws i) :
    0 ≤ j ∧ j.toNat < n := by
  rw [mem_windowList] at hj
  have h1 := windowStart_nonneg n ws i
  have h2 := windowStart_add_len n ws i hws hi
  have h3 := windowEnd_le n ws i
  omega

theorem one_le_windowLen (n : ℕ) (ws : ℤ) (i : ℕ) (hws : 0 ≤ ws) (hi : i < n) :
    1 ≤ windowLen n ws i := by
  have h := windowLen_eq n ws i hws hi
  have hi' : (i : ℤ) < (n : ℤ) := by exact_mod_cast hi
  omega

/-- The target index strictly precedes the window end and is at least the
window start, so it lies inside the window. -/
theorem target_mem_windowList (n : ℕ) (ws : ℤ) (i : ℕ) (hws : 0 ≤ ws) (hi : i < n) :
    (i : ℤ) ∈ windowList n ws i := by
  rw [mem_windowList]
  have h1 := windowStart_le n ws i hws hi
  have h2 := lt_windowEnd n ws i hws hi
  have h3 := windowStart_add_len n ws i hws hi
  omega

/-- `findIdx` on an arithmetic progression of step one locates the unique
occurrence of `s + t`. -/
theorem findIdx_range_map_add (s : ℤ) (L t : ℕ) (ht : t < L) :
    ((List.range L).map (fun (k : ℕ) => s + (k : ℤ))).findIdx
      (fun j => j = s + (t : ℤ)) = t := by
  induction L generalizing s t with
  | zero => omega
  | succ L ih =>
    have hsplit : (List.range (L + 1)).map (fun (k : ℕ) => s + (k : ℤ)) =
        (s + ((0 : ℕ) : ℤ)) ::
          (List.range L).map (fun (k : ℕ) => (s + 1) + (k : ℤ)) := by
      rw [List.range_succ_eq_map, List.map_cons, List.map_map]
      refine congrArg _ (List.map_congr_left fun k _ => ?_)
      simp only [Function.comp_apply, Nat.succ_eq_add_one]
      push_cast
      ring
    rw [hsplit, List.findIdx_cons]
    cases t with
    | zero => simp
    | succ t' =>
      have hne : ¬ (s + ((0 : ℕ) : ℤ) = s + ((t' + 1 : ℕ) : ℤ)) := by
        push_cast
        omega
      rw [decide_eq_false hne, Bool.cond_false]
      have hrw : s + ((t' + 1 : ℕ) : ℤ) = (s + 1) + (t' : ℤ) := by
        push_cast
        ring
      rw [hrw, ih (s + 1) t' (by omega)]

/-! ### Basic facts about the weight function and the FV arithmetic -/

theorem FV.add_nonfin_left (x : FV) : FV.add FV.nonfin x = FV.nonfin := by
  cases x <;> rfl

theorem FV.mul_nonfin_left (x : FV) : FV.mul FV.nonfin x = FV.nonfin := by
  cases x <;> rfl

theorem FV.sub_fin_nonfin (a : ℚ) : FV.sub (FV.fin a) FV.nonfin = FV.nonfin := rfl

theorem tricube_nonneg (x : ℚ) : 0 ≤ tricube x := by
  rw [tricube]
  split_ifs with h
  · have h3 : |x| ^ 3 ≤ 1 := pow_le_one₀ (abs_nonneg x) h
    have : (0 : ℚ) ≤ 1 - |x| ^ 3 := by linarith
    positivity
  · exact le_refl 0

theorem tricube_neg (x : ℚ) : tricube (-x) = tricube x := by
  simp [tricube, abs_neg]

theorem theWeights_nonneg (n : ℕ) (ws : ℤ) (i : ℕ) :
    ∀ q ∈ theWeights n ws i, 0 ≤ q := by
  intro q hq
  rw [theWeights, localWeights] at hq
  cases hmax : maxAbsOffset n ws i with
  | none => rw [hmax] at hq; simp at hq
  | some m =>
    rw [hmax] at hq
    simp only [Option.map_some', Option.getD_some, List.mem_map] at hq
    obtain ⟨d, _, rfl⟩ := hq
    split_ifs
    · exact le_refl 0
    · exact tricube_nonneg _

theorem maxAbsOffset_eq_some (n : ℕ) (ws : ℤ) (i : ℕ) (hws : 0 ≤ ws) (hi : i < n) :
    maxAbsOffset n ws i = some (mVal n ws i) := by
  rw [maxAbsOffset, if_neg, mVal]
  have hlen : (localOffsets n ws i).length = windowLen n ws i := by
    simp only [localOffsets, List.length_map, length_windowList]
  have h1 := one_le_windowLen n ws i hws hi
  intro hnil
  rw [hnil] at hlen
  simp at hlen
  omega

theorem theWeights_eq (n : ℕ) (ws : ℤ) (i : ℕ) (hws : 0 ≤ ws) (hi : i < n) :
    theWeights n ws i = (localOffsets n ws i).map (fun (d : ℤ) =>
      if mVal n ws i = 0 then 0 else tricube ((d : ℚ) / (mVal n ws i : ℚ))) := by
  rw [theWeights, localWeights, maxAbsOffset_eq_some n ws i hws hi]
  rfl

theorem localWeights_eq_some (n : ℕ) (ws : ℤ) (i : ℕ) (hws : 0 ≤ ws) (hi : i < n) :
    localWeights n ws i = some (theWeights n ws i) := by
  rw [theWeights_eq n ws i hws hi, localWeights, maxAbsOffset_eq_some n ws i hws hi]
  rfl

theorem length_localOffsets (n : ℕ) (ws : ℤ) (i : ℕ) :
    (localOffsets n ws i).length = windowLen n ws i := by
  simp only [localOffsets, List.length_map, length_windowList]

theorem length_localXs (n : ℕ) (ws : ℤ) (i : ℕ) :
    (localXs n ws i).length = windowLen n ws i := by
  simp only [localXs, List.length_map, length_localOffsets]

theorem length_localYs (y : List ℚ) (ws : ℤ) (i : ℕ) :
    (localYs y ws i).length = windowLen y.length ws i := by
  simp only [localYs, List.length_map, length_windowList]

theorem length_theWeights (n : ℕ) (ws : ℤ) (i : ℕ) (hws : 0 ≤ ws) (hi : i < n) :
    (theWeights n ws i).length = windowLen n ws i := by
  rw [theWeights_eq n ws i hws hi]
  simp only [List.length_map, length_localOffsets]

/-- Index of the target sample inside the window. -/
def targetIdx (n : ℕ) (ws : ℤ) (i : ℕ) : ℕ :=
  ((i : ℤ) - windowStart n ws i).toNat

theorem targetIdx_lt (n : ℕ) (ws : ℤ) (i : ℕ) (hws : 0 ≤ ws) (hi : i < n) :
    targetIdx n ws i < windowLen n ws i := by
  have h1 := windowStart_le n ws i hws hi
  have h2 := lt_windowEnd n ws i hws hi
  have h3 := windowStart_add_len n ws i hws hi
  rw [targetIdx]
  omega

theorem windowStart_add_targetIdx (n : ℕ) (ws : ℤ) (i : ℕ) (hws : 0 ≤ ws) (hi : i < n) :
    windowStart n ws i + (targetIdx n ws i : ℤ) = (i : ℤ) := by
  have h1 := windowStart_le n ws i hws hi
  rw [targetIdx]
  omega

/-- `np.where(x_local == i)[0][0]`: the first (indeed only) index of the
window whose position is the target index. -/
theorem findIdx_windowList (n : ℕ) (ws : ℤ) (i : ℕ) (hws : 0 ≤ ws) (hi : i < n) :
    (windowList n ws i).findIdx (fun j => j = (i : ℤ)) = targetIdx n ws i := by
  have hlt := targetIdx_lt n ws i hws hi
  have hadd := windowStart_add_targetIdx n ws i hws hi
  rw [windowList]
  have hpred : (fun (j : ℤ) => decide (j = (i : ℤ))) =
      (fun (j : ℤ) => decide (j = windowStart n ws i + (targetIdx n ws i : ℤ))) := by
    rw [hadd]
  calc (List.map (fun (k : ℕ) => windowStart n ws i + (k : ℤ))
          (List.range (windowLen n ws i))).findIdx (fun j => decide (j = (i : ℤ)))
      = (List.map (fun (k : ℕ) => windowStart n ws i + (k : ℤ))
          (List.range (windowLen n ws i))).findIdx
            (fun j => decide (j = windowStart n ws i + (targetIdx n ws i : ℤ))) := by
        rw [hpred]
    _ = targetIdx n ws i := findIdx_range_map_add _ _ _ hlt

theorem localXs_target (n : ℕ) (ws : ℤ) (i : ℕ) (hws : 0 ≤ ws) (hi : i < n) :
    (localXs n ws i)[targetIdx n ws i]? = some 0 := by
  have hlt := targetIdx_lt n ws i hws hi
  have hadd := windowStart_add_targetIdx n ws i hws hi
  rw [localXs, localOffsets, List.getElem?_map, List.getElem?_map,
    getElem?_windowList n ws i _ hlt, hadd]
  simp

theorem smooth_at_eq_body (y : List ℚ) (ws : ℤ) (i : ℕ) (wts : List ℚ)
    (h : localWeights y.length ws i = some wts) :
    smooth_at y ws i =
      (weighted_linear_regression (localXs y.length ws i) (localYs y ws i) wts)[
        (windowList y.length ws i).findIdx (fun j => j = (i : ℤ))]? := by
  simp only [smooth_at, h]

/-- When the slope denominator of the window vanishes, the unguarded
division of line 31 is non-finite and so is the smoothed value. -/
theorem smooth_at_of_den_zero (y : List ℚ) (ws : ℤ) (i : ℕ)
    (hws : 0 ≤ ws) (hi : i < y.length) (hden : windowDen y ws i = 0) :
    smooth_at y ws i = some FV.nonfin := by
  rw [smooth_at_eq_body y ws i _ (localWeights_eq_some y.length ws i hws hi),
    findIdx_windowList y.length ws i hws hi, weighted_linear_regression,
    List.getElem?_map, localXs_target y.length ws i hws hi]
  rw [windowDen] at hden
  simp [FV.div, hden, FV.mul_nonfin_left, FV.sub_fin_nonfin, FV.add_nonfin_left]

/-- When the slope denominator of the window does not vanish, the smoothed
value is the fitted line evaluated at offset `0`, namely
`y_mean - b * x_mean`. -/
theorem smooth_at_of_den_ne_zero (y : List ℚ) (ws : ℤ) (i : ℕ)
    (hws : 0 ≤ ws) (hi : i < y.length) (hden : windowDen y ws i ≠ 0) :
    smooth_at y ws i = some (FV.fin
      (yMean (localYs y ws i) (theWeights y.length ws i) -
        slopeNum (localXs y.length ws i) (localYs y ws i) (theWeights y.length ws i) /
          windowDen y ws i *
          xMean (localXs y.length ws i) (theWeights y.length ws i))) := by
  rw [smooth_at_eq_body y ws i _ (localWeights_eq_some y.length ws i hws hi),
    findIdx_windowList y.length ws i hws hi, weighted_linear_regression,
    List.getElem?_map, localXs_target y.length ws i hws hi]
  rw [windowDen] at hden
  simp only [Option.map_some', FV.div, if_neg hden, FV.mul, FV.sub, FV.add,
    mul_zero, add_zero, windowDen]

/-! ### Weighted-regression algebra on affine data -/

theorem dot_cons (a b : ℚ) (x w : List ℚ) :
    dot (a :: x) (b :: w) = a * b + dot x w := by
  simp [dot]

theorem sum_eq_zero_of_nonneg (w : List ℚ) (h0 : ∀ a ∈ w, 0 ≤ a)
    (hs : w.sum = 0) : ∀ a ∈ w, a = 0 := by
  induction w with
  | nil => simp
  | cons b w ih =>
    have hb : 0 ≤ b := h0 b (by simp)
    have hw : 0 ≤ w.sum := List.sum_nonneg (fun a ha => h0 a (by simp [ha]))
    rw [List.sum_cons] at hs
    have hb0 : b = 0 := by linarith
    have hws : w.sum = 0 := by linarith
    intro a ha
    rcases List.mem_cons.mp ha with rfl | ha'
    · exact hb0
    · exact ih (fun a ha => h0 a (by simp [ha])) hws a ha'

theorem zipWith_mul_sum_left_zero (w : List ℚ) (h : ∀ a ∈ w, a = 0) :
    ∀ l : List ℚ, (List.zipWith (fun wi t => wi * t) w l).sum = 0 := by
  induction w with
  | nil => simp
  | cons b w ih =>
    intro l
    cases l with
    | nil => simp
    | cons c l =>
      rw [List.zipWith_cons_cons, List.sum_cons, h b (by simp), zero_mul, zero_add]
      exact ih (fun a ha => h a (by simp [ha])) l

/-- Since the weights are nonnegative, a nonvanishing slope denominator
forces a nonvanishing weight sum (the guarded means are then genuine
weighted means). -/
theorem sum_ne_zero_of_slopeDenom (x w : List ℚ) (h0 : ∀ a ∈ w, 0 ≤ a)
    (hden : slopeDenom x w ≠ 0) : w.sum ≠ 0 := by
  intro hs
  apply hden
  rw [slopeDenom]
  exact zipWith_mul_sum_left_zero w (sum_eq_zero_of_nonneg w h0 hs) _

theorem dot_map_affine (p r : ℚ) :
    ∀ (x w : List ℚ), x.length = w.length →
      dot (x.map (fun t => p * t + r)) w = p * dot x w + r * w.sum := by
  intro x
  induction x with
  | nil =>
    intro w hw
    cases w with
    | nil => simp [dot]
    | cons b w => simp at hw
  | cons a x ih =>
    intro w hw
    cases w with
    | nil => simp at hw
    | cons b w =>
      rw [List.map_cons, dot_cons, dot_cons, List.sum_cons,
        ih w (by simpa using hw)]
      ring

theorem zipWith_mul_sum_map_factor (p : ℚ) (g : ℚ → ℚ) :
    ∀ (w l : List ℚ),
      (List.zipWith (fun wi t => wi * t) w (l.map (fun t => p * g t))).sum =
        p * (List.zipWith (fun wi t => wi * t) w (l.map g)).sum := by
  intro w
  induction w with
  | nil => simp
  | cons b w ih =>
    intro l
    cases l with
    | nil => simp
    | cons c l =>
      rw [List.map_cons, List.map_cons, List.zipWith_cons_cons,
        List.zipWith_cons_cons, List.sum_cons, List.sum_cons, ih l]
      ring

theorem yMean_affine (p r : ℚ) (xs w : List ℚ) (hlen : xs.length = w.length)
    (hsum : w.sum ≠ 0) :
    yMean (xs.map (fun t => p * t + r)) w = p * xMean xs w + r := by
  rw [yMean, xMean, if_pos hsum, if_pos hsum, dot_map_affine p r xs w hlen]
  field_simp

theorem slopeNum_affine (p r : ℚ) (xs w : List ℚ) (hlen : xs.length = w.length)
    (hsum : w.sum ≠ 0) :
    slopeNum xs (xs.map (fun t => p * t + r)) w = p * slopeDenom xs w := by
  rw [slopeNum, slopeDenom, yMean_affine p r xs w hlen hsum, List.map_map,
    List.map_map]
  rw [show ((fun t => t - (p * xMean xs w + r)) ∘ (fun t => p * t + r)) =
      (fun t => p * (t - xMean xs w)) from by funext t; simp; ring]
  rw [List.zipWith_map (fun s t => s * t) (fun t => t - xMean xs w)
      (fun t => p * (t - xMean xs w)) xs xs,
    List.zipWith_same]
  rw [show (fun (a : ℚ) => (a - xMean xs w) * (p * (a - xMean xs w))) =
      (fun (a : ℚ) => p * ((a - xMean xs w) ^ 2)) from by funext a; ring]
  rw [show ((fun (t : ℚ) => t ^ 2) ∘ (fun t => t - xMean xs w)) =
      (fun (t : ℚ) => (t - xMean xs w) ^ 2) from by funext t; simp]
  exact zipWith_mul_sum_map_factor p (fun t => (t - xMean xs w) ^ 2) w xs

/-- The fitted value at offset `0` of the weighted regression of affine
data `t ↦ p·t + r` is exactly `r`, provided the slope denominator does not
vanish. -/
theorem regression_value_affine (p r : ℚ) (xs w : List ℚ)
    (hlen : xs.length = w.length) (h0 : ∀ a ∈ w, 0 ≤ a)
    (hden : slopeDenom xs w ≠ 0) :
    yMean (xs.map (fun t => p * t + r)) w -
      slopeNum xs (xs.map (fun t => p * t + r)) w / slopeDenom xs w *
        xMean xs w = r := by
  have hsum := sum_ne_zero_of_slopeDenom xs w h0 hden
  rw [yMean_affine p r xs w hlen hsum, slopeNum_affine p r xs w hlen hsum,
    mul_div_assoc, div_self hden, mul_one]
  ring

/-! ### Constant and linear inputs -/

theorem getD_replicate (n : ℕ) (c : ℚ) (j : ℕ) (hj : j < n) :
    (List.replicate n c).getD j 0 = c := by
  rw [List.getD_eq_getElem?_getD, List.getElem?_replicate, if_pos hj]
  rfl

theorem localYs_replicate (n : ℕ) (c : ℚ) (ws : ℤ) (i : ℕ)
    (hws : 0 ≤ ws) (hi : i < n) :
    localYs (List.replicate n c) ws i =
      (localXs n ws i).map (fun t => 0 * t + c) := by
  rw [localYs, localXs, localOffsets, List.length_replicate, List.map_map,
    List.map_map]
  apply List.map_congr_left
  intro j hj
  have hb := mem_windowList_bounds n ws i j hws hi hj
  simp only [Function.comp_apply, zero_mul, zero_add]
  exact getD_replicate n c j.toNat hb.2

theorem localYs_linear (n : ℕ) (p q : ℚ) (ws : ℤ) (i : ℕ)
    (hws : 0 ≤ ws) (hi : i < n) :
    localYs ((List.range n).map (fun (j : ℕ) => p * (j : ℚ) + q)) ws i =
      (localXs n ws i).map (fun t => p * t + (p * (i : ℚ) + q)) := by
  rw [localYs, localXs, localOffsets, List.length_map, List.length_range,
    List.map_map, List.map_map]
  apply List.map_congr_left
  intro j hj
  have hb := mem_windowList_bounds n ws i j hws hi hj
  simp only [Function.comp_apply]
  rw [List.getD_eq_getElem?_getD, List.getElem?_map, List.getElem?_range hb.2]
  have hcast : ((j.toNat : ℕ) : ℚ) = ((j : ℤ) : ℚ) := by
    rw [show ((j.toNat : ℕ) : ℚ) = (((j.toNat : ℕ) : ℤ) : ℚ) from by push_cast; rfl,
      Int.toNat_of_nonneg hb.1]
  simp only [Option.map_some', Option.getD_some, hcast]
  push_cast
  ring

theorem length_localXs_eq_theWeights (n : ℕ) (ws : ℤ) (i : ℕ)
    (hws : 0 ≤ ws) (hi : i < n) :
    (localXs n ws i).length = (theWeights n ws i).length := by
  rw [length_localXs, length_theWeights n ws i hws hi]

/-- Per-index form of constant-input idempotence: with a non-degenerate
window, the smoothed value of a constant sequence is that constant. -/
theorem smooth_at_replicate (n : ℕ) (c : ℚ) (ws : ℤ) (i : ℕ)
    (hws : 0 ≤ ws) (hi : i < n)
    (hden : windowDen (List.replicate n c) ws i ≠ 0) :
    smooth_at (List.replicate n c) ws i = some (FV.fin c) := by
  have hlen : (List.replicate n c).length = n := List.length_replicate n c
  have hi' : i < (List.replicate n c).length := by rw [hlen]; exact hi
  rw [smooth_at_of_den_ne_zero _ ws i hws hi' hden]
  have hden' : slopeDenom (localXs n ws i) (theWeights n ws i) ≠ 0 := by
    rw [windowDen, hlen] at hden
    exact hden
  rw [windowDen, hlen, localYs_replicate n c ws i hws hi,
    regression_value_affine 0 c (localXs n ws i) (theWeights n ws i)
      (length_localXs_eq_theWeights n ws i hws hi)
      (theWeights_nonneg n ws i) hden']

/-- Per-index form of linear-input exactness: with a non-degenerate window,
the smoothed value of the sequence `j ↦ p·j + q` at index `i` is
`p·i + q`. -/
theorem smooth_at_linear (n : ℕ) (p q : ℚ) (ws : ℤ) (i : ℕ)
    (hws : 0 ≤ ws) (hi : i < n)
    (hden : windowDen ((List.range n).map (fun (j : ℕ) => p * (j : ℚ) + q)) ws i ≠ 0) :
    smooth_at ((List.range n).map (fun (j : ℕ) => p * (j : ℚ) + q)) ws i =
      some (FV.fin (p * (i : ℚ) + q)) := by
  have hlen : ((List.range n).map (fun (j : ℕ) => p * (j : ℚ) + q)).length = n := by
    rw [List.length_map, List.length_range]
  have hi' : i < ((List.range n).map (fun (j : ℕ) => p * (j : ℚ) + q)).length := by
    rw [hlen]; exact hi
  rw [smooth_at_of_den_ne_zero _ ws i hws hi' hden]
  have hden' : slopeDenom (localXs n ws i) (theWeights n ws i) ≠ 0 := by
    rw [windowDen, hlen] at hden
    exact hden
  rw [windowDen, hlen, localYs_linear n p q ws i hws hi,
    regression_value_affine p (p * (i : ℚ) + q) (localXs n ws i)
      (theWeights n ws i) (length_localXs_eq_theWeights n ws i hws hi)
      (theWeights_nonneg n ws i) hden']

/-! ### Fully interior windows -/

theorem foldr_max_le (b : ℕ) : ∀ l : List ℕ, (∀ a ∈ l, a ≤ b) → l.foldr max 0 ≤ b := by
  intro l
  induction l with
  | nil => intro _; simp
  | cons c l ih =>
    intro h
    rw [List.foldr_cons]
    exact max_le (h c (by simp)) (ih (fun a ha => h a (by simp [ha])))

theorem le_foldr_max (a : ℕ) : ∀ l : List ℕ, a ∈ l → a ≤ l.foldr max 0 := by
  intro l
  induction l with
  | nil => intro h; simp at h
  | cons c l ih =>
    intro h
    rw [List.foldr_cons]
    rcases List.mem_cons.mp h with rfl | h'
    · exact le_max_left _ _
    · exact le_trans (ih h') (le_max_right _ _)

theorem windowStart_interior (n h i : ℕ) (h1 : h ≤ i) (h2 : i + h + 1 ≤ n) :
    windowStart n (h : ℤ) i = (i : ℤ) - (h : ℤ) := by
  have h1' : (h : ℤ) ≤ (i : ℤ) := by exact_mod_cast h1
  have h2' : (i : ℤ) + (h : ℤ) + 1 ≤ (n : ℤ) := by exact_mod_cast h2
  simp only [windowStart]
  split_ifs <;> omega

theorem windowEnd_interior (n h i : ℕ) (h1 : h ≤ i) (h2 : i + h + 1 ≤ n) :
    windowEnd n (h : ℤ) i = (i : ℤ) + (h : ℤ) + 1 := by
  have h1' : (h : ℤ) ≤ (i : ℤ) := by exact_mod_cast h1
  have h2' : (i : ℤ) + (h : ℤ) + 1 ≤ (n : ℤ) := by exact_mod_cast h2
  simp only [windowEnd]
  split_ifs <;> omega

theorem windowLen_interior (n h i : ℕ) (h1 : h ≤ i) (h2 : i + h + 1 ≤ n) :
    windowLen n (h : ℤ) i = 2 * h + 1 := by
  rw [windowLen, windowStart_interior n h i h1 h2, windowEnd_interior n h i h1 h2]
  omega

theorem localOffsets_interior (n h i : ℕ) (h1 : h ≤ i) (h2 : i + h + 1 ≤ n) :
    localOffsets n (h : ℤ) i =
      (List.range (2 * h + 1)).map (fun (k : ℕ) => (k : ℤ) - (h : ℤ)) := by
  rw [localOffsets, windowList, windowLen_interior n h i h1 h2, List.map_map]
  apply List.map_congr_left
  intro k _
  simp only [Function.comp_apply, windowStart_interior n h i h1 h2]
  ring

theorem mVal_interior (n h i : ℕ) (h1 : h ≤ i) (h2 : i + h + 1 ≤ n) :
    mVal n (h : ℤ) i = h := by
  rw [mVal, localOffsets_interior n h i h1 h2, List.map_map]
  apply le_antisymm
  · apply foldr_max_le
    intro a ha
    rw [List.mem_map] at ha
    obtain ⟨k, hk, rfl⟩ := ha
    rw [List.mem_range] at hk
    simp only [Function.comp_apply]
    omega
  · have hmem : h ∈ (List.range (2 * h + 1)).map
        (Int.natAbs ∘ fun (k : ℕ) => (k : ℤ) - (h : ℤ)) := by
      rw [List.mem_map]
      exact ⟨0, by rw [List.mem_range]; omega, by simp⟩
    exact le_foldr_max h _ hmem

theorem theWeights_interior (n h i : ℕ) (h1 : h ≤ i) (h2 : i + h + 1 ≤ n) :
    theWeights n (h : ℤ) i = (List.range (2 * h + 1)).map (fun (k : ℕ) =>
      if h = 0 then 0 else tricube (((k : ℚ) - (h : ℚ)) / (h : ℚ))) := by
  have hi : i < n := by omega
  rw [theWeights_eq n (h : ℤ) i (by positivity) hi,
    localOffsets_interior n h i h1 h2, List.map_map,
    mVal_interior n h i h1 h2]
  apply List.map_congr_left
  intro k _
  simp only [Function.comp_apply]
  split_ifs with h0
  · rfl
  · push_cast
    rfl

theorem localOffsets_width_one (n i : ℕ) (h1 : 1 ≤ i) (h2 : i + 2 ≤ n) :
    localOffsets n 1 i = [-1, 0, 1] := by
  have h := localOffsets_interior n 1 i h1 (by omega)
  rw [Nat.cast_one] at h
  rw [h, show List.range (2 * 1 + 1) = [0, 1, 2] from rfl]
  norm_num

theorem theWeights_width_one (n i : ℕ) (h1 : 1 ≤ i) (h2 : i + 2 ≤ n) :
    theWeights n 1 i = [0, 1, 0] := by
  have h := theWeights_interior n 1 i h1 (by omega)
  rw [Nat.cast_one] at h
  rw [h, show List.range (2 * 1 + 1) = [0, 1, 2] from rfl]
  norm_num [tricube]

theorem windowDen_width_one (y : List ℚ) (i : ℕ)
    (h1 : 1 ≤ i) (h2 : i + 2 ≤ y.length) :
    windowDen y 1 i = 0 := by
  rw [windowDen, theWeights_width_one y.length i h1 h2, localXs,
    localOffsets_width_one y.length i h1 h2]
  norm_num [slopeDenom, xMean, dot]

/-! ### Remaining helper lemmas -/

/-- A singleton input: the window is `[0, 1)`, the only offset is `0`, the
maximal absolute offset is `0`, so the single weight is `0` (IEEE `w(0/0) =
w(NaN) = 0`), the slope denominator vanishes and the output is non-finite. -/
theorem my_lowess_singleton (c : ℚ) (ws : ℤ) (hws : 0 ≤ ws) :
    my_lowess [c] ws = [some FV.nonfin] := by
  have h1 : (0 : ℕ) < ([c] : List ℚ).length := by simp
  have hlen : windowLen 1 ws 0 = 1 := by
    have h := windowLen_eq 1 ws 0 hws (by omega)
    omega
  have hs : windowStart 1 ws 0 = 0 := by
    have ha := windowStart_nonneg 1 ws 0
    have hb := windowStart_le 1 ws 0 hws (by omega)
    omega
  have hwl : windowList 1 ws 0 = [0] := by
    rw [windowList, hlen, hs, show List.range 1 = [0] from rfl]
    norm_num
  have hofs : localOffsets 1 ws 0 = [0] := by
    rw [localOffsets, hwl]
    norm_num
  have hm : mVal 1 ws 0 = 0 := by
    rw [mVal, hofs]
    rfl
  have hw : theWeights 1 ws 0 = [0] := by
    rw [theWeights_eq 1 ws 0 hws (by omega), hofs, hm]
    norm_num
  have hxs : localXs 1 ws 0 = [0] := by
    rw [localXs, hofs]
    norm_num
  have hden : windowDen [c] ws 0 = 0 := by
    rw [windowDen, show ([c] : List ℚ).length = 1 from rfl, hxs, hw]
    norm_num [slopeDenom, xMean, dot]
  have hsm := smooth_at_of_den_zero [c] ws 0 hws h1 hden
  rw [my_lowess, show ([c] : List ℚ).length = 1 from rfl,
    show List.range 1 = [0] from rfl, List.map_cons, List.map_nil, hsm]

/-- A negative window size makes `np.arange(start, end)` empty (`start > end`),
so Python's `max` over the empty offsets raises `ValueError`. -/
theorem smooth_at_neg_ws (y : List ℚ) (ws : ℤ) (i : ℕ)
    (hws : ws < 0) (hi : i < y.length) :
    smooth_at y ws i = none := by
  have hi' : (i : ℤ) < (y.length : ℤ) := by exact_mod_cast hi
  have hlen : windowLen y.length ws i = 0 := by
    rw [windowLen]
    simp only [windowStart, windowEnd]
    split_ifs <;> omega
  have hofs : localOffsets y.length ws i = [] := by
    rw [localOffsets, windowList, hlen]
    rfl
  have hmax : maxAbsOffset y.length ws i = none := by
    rw [maxAbsOffset, if_pos hofs]
  have hlw : localWeights y.length ws i = none := by
    rw [localWeights, hmax]
    rfl
  simp only [smooth_at, hlw]

/-- For a length-5 sequence, the window at `i = 2` with `window_size = 2`
is the whole sequence with weights `[0, 343/512, 1, 343/512, 0]`; its slope
denominator is `343/256 ≠ 0`. -/
theorem windowDen_len5_ws2_i2 (y : List ℚ) (h : y.length = 5) :
    windowDen y 2 2 ≠ 0 := by
  rw [windowDen, h]
  have hofs := localOffsets_interior 5 2 2 (by norm_num) (by norm_num)
  have hwts := theWeights_interior 5 2 2 (by norm_num) (by norm_num)
  rw [show ((2 : ℕ) : ℤ) = (2 : ℤ) from by norm_num] at hofs hwts
  rw [localXs, hofs, hwts, show List.range (2 * 2 + 1) = [0, 1, 2, 3, 4] from rfl]
  have habs : |(1 : ℚ) / 2| = 1 / 2 := by
    rw [abs_of_pos]
    norm_num
  norm_num [tricube, slopeDenom, xMean, dot, habs]

/-! ### The claims -/

/-- Claim C1: for every non-empty input sequence of length `n` and every
`half_width ≥ 0`, `my_lowess` returns a sequence of exactly length `n`,
with one smoothed value per input index, assembled in the same index order
as the input (entry `i` is the smoothing of the window at index `i`). -/
theorem claim_length_order (y : List ℚ) (ws : ℤ) (hy : y ≠ []) (hws : 0 ≤ ws) :
    (my_lowess y ws).length = y.length ∧
      ∀ i, i < y.length → (my_lowess y ws)[i]? = some (smooth_at y ws i) := by
  constructor
  · rw [my_lowess, List.length_map, List.length_range]
  · intro i hi
    rw [my_lowess, List.getElem?_map, List.getElem?_range hi, Option.map_some']

theorem claim_length_order_witness :
    (my_lowess [(1 : ℚ), 2, 3] 1).length = 3 ∧
      (my_lowess [(1 : ℚ), 2, 3] 1)[1]? = some (smooth_at [(1 : ℚ), 2, 3] 1 1) :=
  ⟨(claim_length_order [(1 : ℚ), 2, 3] 1 (by simp) (by norm_num)).1,
    (claim_length_order [(1 : ℚ), 2, 3] 1 (by simp) (by norm_num)).2 1 (by norm_num)⟩

/-- Claim C2: the selected window starts from `[i-h, i+h+1)`, is shifted
right by the deficit when the lower bound is negative, shifted left by the
overflow when the upper bound exceeds `n` (exactly the definitions of
`windowStart`/`windowEnd`), then clipped to `[0, n]`; consequently when
`n > 2h` every window has exactly `2h+1` samples, and only when
`n ≤ 2h+1` does the window degrade to the full sequence. -/
theorem claim_window_geometry (n : ℕ) (ws : ℤ) (i : ℕ)
    (hn : 1 ≤ n) (hws : 0 ≤ ws) (hi : i < n) :
    ((windowLen n ws i : ℤ) = min (n : ℤ) (2 * ws + 1)) ∧
      (2 * ws < (n : ℤ) → (windowLen n ws i : ℤ) = 2 * ws + 1) ∧
      ((n : ℤ) ≤ 2 * ws + 1 → windowStart n ws i = 0 ∧ windowEnd n ws i = (n : ℤ)) ∧
      (2 * ws + 1 < (n : ℤ) →
        ¬(windowStart n ws i = 0 ∧ windowEnd n ws i = (n : ℤ))) := by
  have h1 := windowStart_nonneg n ws i
  have h2 := windowEnd_le n ws i
  have h3 := windowEnd_sub_windowStart n ws i hws hi
  have h4 := windowLen_eq n ws i hws hi
  omega

theorem claim_window_geometry_witness :
    ((windowLen 5 1 0 : ℤ) = min ((5 : ℕ) : ℤ) (2 * 1 + 1)) ∧
      (2 * 1 < ((5 : ℕ) : ℤ) → (windowLen 5 1 0 : ℤ) = 2 * 1 + 1) ∧
      (((5 : ℕ) : ℤ) ≤ 2 * 1 + 1 →
        windowStart 5 1 0 = 0 ∧ windowEnd 5 1 0 = ((5 : ℕ) : ℤ)) ∧
      (2 * 1 + 1 < ((5 : ℕ) : ℤ) →
        ¬(windowStart 5 1 0 = 0 ∧ windowEnd 5 1 0 = ((5 : ℕ) : ℤ))) :=
  claim_window_geometry 5 1 0 (by norm_num) (by norm_num) (by norm_num)

/-- Claim C3 as stated is false: for the single-sample input `[5]` with
`half_width = 2` the smoother returns a non-finite value, not the input
value `5`.  (The normalized coordinate is `0/0 = NaN`, its tri-cube weight
is `0` — not `1` — and the slope denominator vanishes.) -/
theorem claim_single_point_counterexample :
    my_lowess [(5 : ℚ)] 2 = [some FV.nonfin] ∧
      my_lowess [(5 : ℚ)] 2 ≠ [some (FV.fin 5)] := by
  have h := my_lowess_singleton 5 2 (by norm_num)
  refine ⟨h, ?_⟩
  rw [h]
  simp

/-- Claim C3 (amended): for a single-sample input (`n = 1`) and arbitrary
`half_width ≥ 0`, the window has size 1 and maximal absolute offset
`m = 0`; the normalized coordinate `0/0` is NaN, whose tri-cube weight is
`0`, so the slope denominator vanishes and the smoother returns a
non-finite value (not the input value). -/
theorem claim_single_point_nonfinite (c : ℚ) (ws : ℤ) (hws : 0 ≤ ws) :
    my_lowess [c] ws = [some FV.nonfin] :=
  my_lowess_singleton c ws hws

theorem claim_single_point_nonfinite_witness :
    my_lowess [(7 : ℚ)] 3 = [some FV.nonfin] :=
  claim_single_point_nonfinite 7 3 (by norm_num)

/-- Claim C4: if every sample value equals the same constant `c`, then the
smoother returns `c` at every position whose window is non-degenerate (the
weighted sum of squared centered offsets in the slope denominator is
nonzero). -/
theorem claim_constant_idempotence (n : ℕ) (c : ℚ) (ws : ℤ) (i : ℕ)
    (hws : 0 ≤ ws) (hi : i < n)
    (hden : windowDen (List.replicate n c) ws i ≠ 0) :
    (my_lowess (List.replicate n c) ws)[i]? = some (some (FV.fin c)) := by
  rw [my_lowess, List.length_replicate, List.getElem?_map,
    List.getElem?_range hi, Option.map_some',
    smooth_at_replicate n c ws i hws hi hden]

theorem claim_constant_idempotence_witness :
    (my_lowess (List.replicate 5 (3 : ℚ)) 2)[2]? = some (some (FV.fin 3)) :=
  claim_constant_idempotence 5 3 2 2 (by norm_num) (by norm_num)
    (windowDen_len5_ws2_i2 (List.replicate 5 (3 : ℚ)) (by simp))

/-- Claim C5 as stated is false: for the linear input `y = 1·x + 0` on
positions `0, 1, 2` with `half_width = 1`, the interior position `1`
(`h ≤ 1 ≤ n-1-h`) yields a non-finite value, not `p·1 + q = 1`: the window
weights are `[0, 1, 0]`, so the slope denominator vanishes. -/
theorem claim_linear_exactness_counterexample :
    (my_lowess ((List.range 3).map (fun (j : ℕ) => 1 * (j : ℚ) + 0)) 1)[1]? =
        some (some FV.nonfin) ∧
      (my_lowess ((List.range 3).map (fun (j : ℕ) => 1 * (j : ℚ) + 0)) 1)[1]? ≠
        some (some (FV.fin (1 * ((1 : ℕ) : ℚ) + 0))) := by
  have hylen : ((List.range 3).map (fun (j : ℕ) => 1 * (j : ℚ) + 0)).length = 3 := by
    rw [List.length_map, List.length_range]
  have hden := windowDen_width_one
    ((List.range 3).map (fun (j : ℕ) => 1 * (j : ℚ) + 0)) 1
    (by norm_num) (by rw [hylen])
  have hsm := smooth_at_of_den_zero
    ((List.range 3).map (fun (j : ℕ) => 1 * (j : ℚ) + 0)) 1 1
    (by norm_num) (by rw [hylen]; norm_num) hden
  constructor
  · rw [my_lowess, hylen, List.getElem?_map, List.getElem?_range (by norm_num),
      Option.map_some', hsm]
  · rw [my_lowess, hylen, List.getElem?_map, List.getElem?_range (by norm_num),
      Option.map_some', hsm]
    simp

/-- Claim C5 (amended): if the sample values are an exact linear function
of position, `y = p·x + q`, then the smoother reproduces `p·i + q` exactly
at every interior position `i` **whose window is non-degenerate** (the
slope denominator is nonzero — this extra proviso is forced by the
`half_width = 1` counterexample, where every interior window is
degenerate). -/
theorem claim_linear_exactness_amended (n : ℕ) (p q : ℚ) (ws : ℤ) (i : ℕ)
    (hws : 0 ≤ ws) (hin1 : ws ≤ (i : ℤ)) (hin2 : (i : ℤ) + ws + 1 ≤ (n : ℤ))
    (hden : windowDen ((List.range n).map (fun (j : ℕ) => p * (j : ℚ) + q)) ws i ≠ 0) :
    (my_lowess ((List.range n).map (fun (j : ℕ) => p * (j : ℚ) + q)) ws)[i]? =
      some (some (FV.fin (p * (i : ℚ) + q))) := by
  have hi : i < n := by omega
  rw [my_lowess, List.length_map, List.length_range, List.getElem?_map,
    List.getElem?_range hi, Option.map_some',
    smooth_at_linear n p q ws i hws hi hden]

theorem claim_linear_exactness_amended_witness :
    (my_lowess ((List.range 5).map (fun (j : ℕ) => 1 * (j : ℚ) + 0)) 2)[2]? =
      some (some (FV.fin (1 * ((2 : ℕ) : ℚ) + 0))) :=
  claim_linear_exactness_amended 5 1 0 2 2 (by norm_num) (by norm_num) (by norm_num)
    (windowDen_len5_ws2_i2 ((List.range 5).map (fun (j : ℕ) => 1 * (j : ℚ) + 0))
      (by rw [List.length_map, List.length_range]))

/-- Claim C6: for every target index whose window is fully interior
(`half_width ≤ i` and `i + half_width ≤ n - 1`), the computed weight vector
is symmetric about the target index: the tri-cube weight at offset `+k`
(window position `h+k`) equals the weight at offset `-k` (window position
`h-k`) for every `k ≤ h`. -/
theorem claim_interior_weight_symmetry (n h i k : ℕ)
    (h1 : h ≤ i) (h2 : i + h + 1 ≤ n) (hk : k ≤ h) :
    (theWeights n (h : ℤ) i)[h + k]? = (theWeights n (h : ℤ) i)[h - k]? := by
  rw [theWeights_interior n h i h1 h2, List.getElem?_map, List.getElem?_map,
    List.getElem?_range (by omega), List.getElem?_range (by omega)]
  simp only [Option.map_some']
  congr 1
  split_ifs with h0
  · rfl
  · have e1 : ((h + k : ℕ) : ℚ) - (h : ℚ) = (k : ℚ) := by
      push_cast
      ring
    have e2 : ((h - k : ℕ) : ℚ) - (h : ℚ) = -(k : ℚ) := by
      rw [Nat.cast_sub hk]
      ring
    rw [e1, e2, neg_div, tricube_neg]

theorem claim_interior_weight_symmetry_witness :
    (theWeights 5 ((1 : ℕ) : ℤ) 2)[1 + 1]? = (theWeights 5 ((1 : ℕ) : ℤ) 2)[1 - 1]? :=
  claim_interior_weight_symmetry 5 1 2 1 (by norm_num) (by norm_num) (by norm_num)

/-- Claim C7: for every non-empty input and every `half_width ≥ 0`, the
smoothing driver never raises: every per-index evaluation returns a value;
numeric degeneracy (a vanishing slope denominator, which subsumes the
zero-weight window) propagates into the output as a non-finite value
rather than an error; and the computation is deterministic (a pure
function of its inputs). -/
theorem claim_driver_totality (y : List ℚ) (ws : ℤ) (hy : y ≠ []) (hws : 0 ≤ ws) :
    (∀ i, i < y.length → (smooth_at y ws i).isSome = true) ∧
      (∀ i, i < y.length → windowDen y ws i = 0 →
        smooth_at y ws i = some FV.nonfin) ∧
      my_lowess y ws = my_lowess y ws := by
  refine ⟨?_, fun i hi hden => smooth_at_of_den_zero y ws i hws hi hden, rfl⟩
  intro i hi
  by_cases hden : windowDen y ws i = 0
  · rw [smooth_at_of_den_zero y ws i hws hi hden]
    rfl
  · rw [smooth_at_of_den_ne_zero y ws i hws hi hden]
    rfl

theorem claim_driver_totality_witness :
    (smooth_at [(1 : ℚ), 2] 0 0).isSome = true ∧
      (windowDen [(1 : ℚ), 2] 0 0 = 0 → smooth_at [(1 : ℚ), 2] 0 0 = some FV.nonfin) ∧
      my_lowess [(1 : ℚ), 2] 0 = my_lowess [(1 : ℚ), 2] 0 :=
  ⟨(claim_driver_totality [(1 : ℚ), 2] 0 (by simp) (by norm_num)).1 0 (by norm_num),
    (claim_driver_totality [(1 : ℚ), 2] 0 (by simp) (by norm_num)).2.1 0 (by norm_num),
    (claim_driver_totality [(1 : ℚ), 2] 0 (by simp) (by norm_num)).2.2⟩

/-- Claim C8 as stated is false for the empty-sequence half: on an empty
input `my_lowess` silently returns an empty result list (the loop body
never runs), with no exception and no error marker — it does not fail
loudly. -/
theorem claim_empty_input_counterexample :
    my_lowess ([] : List ℚ) 3 = ([] : List (Option FV)) := rfl

/-- Claim C8 (amended): of the two precondition violations, only a
negative `half_width` fails loudly — the shifted window is empty, so
`max()` raises `ValueError` (modelled by `none`); an empty input sequence
is instead accepted silently, returning an empty output. -/
theorem claim_precondition_amended (y : List ℚ) (ws : ℤ) (i : ℕ)
    (hws : ws < 0) (hi : i < y.length) :
    smooth_at y ws i = none ∧ my_lowess ([] : List ℚ) ws = [] :=
  ⟨smooth_at_neg_ws y ws i hws hi, rfl⟩

theorem claim_precondition_amended_witness :
    smooth_at [(1 : ℚ), 2] (-1) 0 = none ∧ my_lowess ([] : List ℚ) (-1) = [] :=
  claim_precondition_amended [(1 : ℚ), 2] (-1) 0 (by norm_num) (by norm_num)

/-- Claim C9: for `half_width = 1` and every interior target index
(`1 ≤ i ≤ n-2`), the two edge samples of the window have normalized offset
`±1` and tri-cube weight exactly `0`, leaving positive weight only on the
target sample (`theWeights = [0, 1, 0]`); the slope denominator is
therefore `0` and the unguarded division makes the output non-finite. -/
theorem claim_width_one_degeneracy (y : List ℚ) (i : ℕ)
    (h1 : 1 ≤ i) (h2 : i + 2 ≤ y.length) :
    theWeights y.length 1 i = [0, 1, 0] ∧ windowDen y 1 i = 0 ∧
      smooth_at y 1 i = some FV.nonfin := by
  refine ⟨theWeights_width_one y.length i h1 h2,
    windowDen_width_one y i h1 h2, ?_⟩
  exact smooth_at_of_den_zero y 1 i (by norm_num) (by omega)
    (windowDen_width_one y i h1 h2)

theorem claim_width_one_degeneracy_witness :
    theWeights 3 1 1 = [0, 1, 0] ∧ windowDen [(1 : ℚ), 5, 2] 1 1 = 0 ∧
      smooth_at [(1 : ℚ), 5, 2] 1 1 = some FV.nonfin :=
  claim_width_one_degeneracy [(1 : ℚ), 5, 2] 1 (by norm_num) (by norm_num)

/-- Claim C10: for every sequence length `n ≥ 1`, target index `i < n` and
`half_width ≥ 0`, the selected window `[start, end)` satisfies
`start ≤ i < end`, the target position occurs exactly once in the window,
and the lookup `np.where(x_local == i)[0][0]` returns an in-range index,
so the indexing never fails. -/
theorem claim_target_lookup (n : ℕ) (ws : ℤ) (i : ℕ) (hws : 0 ≤ ws) (hi : i < n) :
    windowStart n ws i ≤ (i : ℤ) ∧ (i : ℤ) < windowEnd n ws i ∧
      (windowList n ws i).count (i : ℤ) = 1 ∧
      (windowList n ws i).findIdx (fun j => j = (i : ℤ)) <
        (windowList n ws i).length := by
  refine ⟨windowStart_le n ws i hws hi, lt_windowEnd n ws i hws hi, ?_, ?_⟩
  · have hnd : (windowList n ws i).Nodup := by
      rw [windowList]
      refine List.Nodup.map (fun a b hab => by omega) (List.nodup_range _)
    exact List.count_eq_one_of_mem hnd (target_mem_windowList n ws i hws hi)
  · rw [findIdx_windowList n ws i hws hi, length_windowList]
    exact targetIdx_lt n ws i hws hi

theorem claim_target_lookup_witness :
    windowStart 4 1 0 ≤ ((0 : ℕ) : ℤ) ∧ ((0 : ℕ) : ℤ) < windowEnd 4 1 0 ∧
      (windowList 4 1 0).count ((0 : ℕ) : ℤ) = 1 ∧
      (windowList 4 1 0).findIdx (fun j => j = ((0 : ℕ) : ℤ)) <
        (windowList 4 1 0).length :=
  claim_target_lookup 4 1 0 (by norm_num) (by norm_num)
